import Mathlib

/-!
# Verification of the Fe-statistic engine (`Fe_statistic.py`)

Shallow embedding, over `ℚ`, of the source file
`src/enterprise_extensions/frequentist/Fe_statistic.py`:

* `innerProduct_rr` — the rank-reduced inner product (source lines 114-148);
* `make_Nmat` — the marginalized-noise-matrix builder (source lines 150-165);
* `FeStat` (`__init__` / `get_Nmats` / `compute_Fe`) — the evaluator
  (source lines 10-111), with the mutable `Nmats` cache made explicit by
  state passing.

External collaborators (numpy, scipy, the `enterprise` model object and the
antenna-pattern function) are modelled as follows:

* numpy/scipy array arithmetic becomes `Matrix (Fin n) (Fin m) ℚ` and
  `Fin n → ℚ` arithmetic; where numpy would raise a `ValueError` on a
  shape mismatch, the embedding takes `List ℚ` inputs and checks the
  length against the expected dimension at the same program point;
* `scipy.linalg.cho_factor` / `cho_solve` are modelled by their exact
  mathematical contract: factoring reads the upper triangle of its input,
  fails (LinAlgError) iff the symmetric matrix encoded by that triangle is
  not positive definite, and a subsequent solve applies that matrix's
  inverse.  The `check_finite` flag never affects this in exact
  arithmetic, since every rational value is finite;
* `np.sin`, `np.cos`, `f0 ** (1/3)`, `np.pi`, the antenna-pattern function
  `utils.create_gw_antenna_pattern` and `np.linalg.pinv` (total on all
  matrices) are opaque environment parameters (`Env`);
* the `pta` model object is a per-pulsar list of records holding the
  values of its `get_TNT` / `get_phiinv` (both methods) / `get_ndiag` /
  `get_basis` accessors.

Python's `raise` becomes `Except Err`; evaluation order of the embedded
operations follows the source's statement order.
-/

open Matrix

/-- Errors surfaced by the embedded code: `linAlg` models
`scipy.linalg.LinAlgError` (Cholesky failure on a non-positive-definite
matrix), `valueError` models Python/numpy `ValueError` (shape mismatch in
`np.dot`, or the ambiguous truth value of a multi-element array). -/
inductive Err where
  | linAlg : Err
  | valueError : Err
deriving DecidableEq, Repr

/-- View a `List ℚ` of known length as a `Fin n → ℚ` vector. -/
def vecOf {n : ℕ} (x : List ℚ) (h : x.length = n) : Fin n → ℚ :=
  fun i => x.get (Fin.cast h.symm i)

/-- The symmetric matrix encoded by the upper triangle of `A` (what LAPACK's
`potrf` with `lower=False` — scipy's default — actually reads). -/
def symUpper {m : ℕ} (A : Matrix (Fin m) (Fin m) ℚ) : Matrix (Fin m) (Fin m) ℚ :=
  Matrix.of fun i j => if i ≤ j then A i j else A j i

/-- An executable determinant (Laplace expansion along column 0); equal to
Mathlib's `Matrix.det` (`detQ_eq_det`) but kernel-reducible, so that
concrete runs of the embedded code can be checked by `decide`. -/
def detQ : {m : ℕ} → Matrix (Fin m) (Fin m) ℚ → ℚ
  | 0, _ => 1
  | k + 1, A =>
    ∑ i : Fin (k + 1), (-1) ^ (i : ℕ) * A i 0 * detQ (A.submatrix i.succAbove Fin.succ)

theorem detQ_eq_det {m : ℕ} (A : Matrix (Fin m) (Fin m) ℚ) : detQ A = A.det := by
  induction m with
  | zero => rw [Matrix.det_fin_zero]; rfl
  | succ k ih =>
    have hd : detQ A =
        ∑ i : Fin (k + 1), (-1) ^ (i : ℕ) * A i 0 *
          detQ (A.submatrix i.succAbove Fin.succ) := rfl
    rw [hd, Matrix.det_succ_column_zero]
    exact Finset.sum_congr rfl fun i _ => by rw [ih]

/-- An executable adjugate (cofactor matrix), equal to Mathlib's
`Matrix.adjugate` (`adjQ_eq_adjugate`) but kernel-reducible. -/
def adjQ : {m : ℕ} → Matrix (Fin m) (Fin m) ℚ → Matrix (Fin m) (Fin m) ℚ
  | 0, _ => 1
  | _ + 1, A =>
    Matrix.of fun i j =>
      (-1) ^ ((j : ℕ) + (i : ℕ)) * detQ (A.submatrix j.succAbove i.succAbove)

theorem adjQ_eq_adjugate {m : ℕ} (A : Matrix (Fin m) (Fin m) ℚ) :
    adjQ A = A.adjugate := by
  match m with
  | 0 => ext i j; exact i.elim0
  | k + 1 =>
    ext i j
    rw [Matrix.adjugate_fin_succ_eq_det_submatrix, ← detQ_eq_det]
    rfl

/-- Determinant of the leading `k × k` block of `A`. -/
def leadDet {m : ℕ} (A : Matrix (Fin m) (Fin m) ℚ) (k : ℕ) (h : k ≤ m) : ℚ :=
  detQ (A.submatrix (Fin.castLE h) (Fin.castLE h))

/-- Positive definiteness over `ℚ`, by Sylvester's criterion: every leading
principal minor is positive.  For symmetric rational matrices this is
exactly the success condition of a Cholesky factorization. -/
def PosDefQ {m : ℕ} (A : Matrix (Fin m) (Fin m) ℚ) : Prop :=
  ∀ k : ℕ, ∀ h : k ≤ m, 0 < leadDet A k h

instance {m : ℕ} (A : Matrix (Fin m) (Fin m) ℚ) : Decidable (PosDefQ A) :=
  Nat.decidableBallLE m _

/-- Explicit inverse `det⁻¹ • adjugate`; agrees with the true inverse on
invertible matrices (`matInv_mul`, `mul_matInv`). -/
def matInv {m : ℕ} (A : Matrix (Fin m) (Fin m) ℚ) : Matrix (Fin m) (Fin m) ℚ :=
  (detQ A)⁻¹ • adjQ A

theorem matInv_eq {m : ℕ} (A : Matrix (Fin m) (Fin m) ℚ) :
    matInv A = (A.det)⁻¹ • A.adjugate := by
  rw [matInv, detQ_eq_det, adjQ_eq_adjugate]

theorem leadDet_zero {m : ℕ} (A : Matrix (Fin m) (Fin m) ℚ) (h : 0 ≤ m) :
    leadDet A 0 h = 1 := rfl

theorem leadDet_one {m : ℕ} (A : Matrix (Fin m) (Fin m) ℚ) (h : 1 ≤ m) :
    leadDet A 1 h = A (Fin.castLE h 0) (Fin.castLE h 0) := by
  unfold leadDet
  rw [detQ_eq_det, Matrix.det_fin_one, Matrix.submatrix_apply]

theorem posDefQ_one_iff (a : ℚ) : PosDefQ ![![a]] ↔ 0 < a := by
  constructor
  · intro h
    have h1 := h 1 le_rfl
    rwa [leadDet_one] at h1
  · intro ha k hk
    interval_cases k
    · exact one_pos
    · rw [leadDet_one]; exact ha

/-- Model of `scipy.linalg.cho_factor(Sigma, check_finite=cf)`: reads the
upper triangle, fails with `LinAlgError` iff the symmetric matrix it encodes
is not positive definite.  `checkFinite` is irrelevant in exact rational
arithmetic (there are no NaN/Inf values to screen): it never influences the
positive-definiteness test, in either mode.  The returned "factor object" is
represented by the symmetrized matrix itself. -/
def cho_factor {m : ℕ} (_checkFinite : Bool) (Sigma : Matrix (Fin m) (Fin m) ℚ) :
    Except Err (Matrix (Fin m) (Fin m) ℚ) :=
  let S := symUpper Sigma
  if PosDefQ S then .ok S else .error .linAlg

/-- Model of `scipy.linalg.cho_solve(cf, b)` for a vector right-hand side:
applies the inverse of the factored matrix. -/
def cho_solveV {m : ℕ} (cf : Matrix (Fin m) (Fin m) ℚ) (b : Fin m → ℚ) : Fin m → ℚ :=
  (matInv cf).mulVec b

/-- Model of `scipy.linalg.cho_solve(cf, B)` for a matrix right-hand side. -/
def cho_solveM {m k : ℕ} (cf : Matrix (Fin m) (Fin m) ℚ)
    (B : Matrix (Fin m) (Fin k) ℚ) : Matrix (Fin m) (Fin k) ℚ :=
  matInv cf * B

/-- Python truthiness of `v == None` where `v` is either `None` or a numpy
array: `None == None` is `True`; comparing an array with `None` yields an
elementwise boolean array, whose truth value is its sole element when it has
exactly one, and raises `ValueError` ("truth value of an array ... is
ambiguous") otherwise. -/
def pyEqNoneTruth {m : ℕ} (v : Option (Fin m → ℚ)) : Except Err Bool :=
  match v with
  | none => .ok true
  | some _ => if m = 1 then .ok false else .error .valueError

/-- Python evaluation of the guard `TNx == None and TNy == None`
(source line 135): `and` takes the truth value of its left operand, and the
`if` then takes the truth value of whichever operand `and` returned. -/
def pyBothNone {m : ℕ} (tx ty : Option (Fin m → ℚ)) : Except Err Bool := do
  let a ← pyEqNoneTruth tx
  if a then pyEqNoneTruth ty else pure false

/-- Source lines 139-146: Cholesky-factor `Sigma` (with `check_finite=False`
exactly when `brave`), solve for `Σ⁻¹·TNy`, and return
`xNy - TNx·(Σ⁻¹ TNy)`. -/
def finishIP {m : ℕ} (brave : Bool) (Sigma : Matrix (Fin m) (Fin m) ℚ)
    (xNy : ℚ) (TNx TNy : Fin m → ℚ) : Except Err ℚ :=
  if brave then
    match cho_factor false Sigma with
    | .error e => .error e
    | .ok cf => .ok (xNy - TNx ⬝ᵥ cho_solveV cf TNy)
  else
    match cho_factor true Sigma with
    | .error e => .error e
    | .ok cf => .ok (xNy - TNx ⬝ᵥ cho_solveV cf TNy)

/-- Body of `innerProduct_rr` (source lines 130-148) once `x` and `y` have
passed numpy's length checks against `Nmat`.  `Tmat`'s row count `nT` is
still arbitrary: numpy only checks it at `np.dot(Tmat.T, Nx)` (line 136),
which runs after the `TNx == None and TNy == None` guard (line 135). -/
def innerProductCore {n nT m : ℕ} (x y : Fin n → ℚ)
    (Nmat : Matrix (Fin n) (Fin n) ℚ) (Tmat : Matrix (Fin nT) (Fin m) ℚ)
    (Sigma : Matrix (Fin m) (Fin m) ℚ)
    (TNx0 TNy0 : Option (Fin m → ℚ)) (brave : Bool) : Except Err ℚ :=
  let xNy := Matrix.vecMul x Nmat ⬝ᵥ y
  let Nx := Nmat.mulVec x
  let Ny := Nmat.mulVec y
  match pyBothNone TNx0 TNy0 with
  | .error e => .error e
  | .ok true =>
    if hT : nT = n then
      let Tm := Tmat.submatrix (Fin.cast hT.symm) id
      finishIP brave Sigma xNy (Tmᵀ.mulVec Nx) (Tmᵀ.mulVec Ny)
    else .error .valueError
  | .ok false =>
    match TNx0, TNy0 with
    | some TNx, some TNy => finishIP brave Sigma xNy TNx TNy
    | _, _ => .error .valueError

/-- Source lines 114-148, `innerProduct_rr(x, y, Nmat, Tmat, Sigma, TNx,
TNy, brave)`.  `x` and `y` arrive as raw lists; `np.dot(np.dot(x, Ni), y)`
(line 132) checks `x`'s length and then `y`'s length against `Nmat`'s
dimension, raising `ValueError` on mismatch, before anything else runs. -/
def innerProduct_rr {nN nT m : ℕ} (x y : List ℚ)
    (Nmat : Matrix (Fin nN) (Fin nN) ℚ) (Tmat : Matrix (Fin nT) (Fin m) ℚ)
    (Sigma : Matrix (Fin m) (Fin m) ℚ)
    (TNx TNy : Option (Fin m → ℚ)) (brave : Bool) : Except Err ℚ :=
  if hx : x.length = nN then
    if hy : y.length = nN then
      innerProductCore (vecOf x hx) (vecOf y hy) Nmat Tmat Sigma TNx TNy brave
    else .error .valueError
  else .error .valueError

/-- A pulsar's sky position (`psr.pos`, a 3-vector); opaque to the core,
only ever forwarded to the external antenna-pattern function. -/
def Pos : Type := ℚ × ℚ × ℚ

/-- An `enterprise` Pulsar as the core reads it: ordered TOAs, ordered
timing residuals, sky position.  The two lists' lengths are *not* tied
together in the type, exactly as in the source. -/
structure Pulsar where
  toas : List ℚ
  residuals : List ℚ
  pos : Pos

/-- A per-pulsar phi-inverse as returned by `pta.get_phiinv`: either a 1-D
vector (`phiinv.ndim == 1`) or a full dense matrix. -/
inductive PhiInv (m : ℕ) where
  | vec : (Fin m → ℚ) → PhiInv m
  | mat : Matrix (Fin m) (Fin m) ℚ → PhiInv m

/-- `TNT + (np.diag(phiinv) if phiinv.ndim == 1 else phiinv)` — the
expression shared verbatim by source lines 69 and 152. -/
def mkSigma {m : ℕ} (TNT : Matrix (Fin m) (Fin m) ℚ) : PhiInv m → Matrix (Fin m) (Fin m) ℚ
  | .vec v => TNT + Matrix.diagonal v
  | .mat P => TNT + P

/-- Per-pulsar data held by the external `pta` model object: the values of
`get_TNT(params)`, `get_phiinv(params, logdet=False)` (default method, used
by `compute_Fe` line 54), `get_phiinv(params, logdet=False,
method='partition')` (used by `get_Nmats` line 34), the noise descriptor's
`solve` capability (`get_ndiag`; `Nvec.solve(other, left_array)` computes
`leftᵀ · N⁻¹ · other`, here with `other` an `n × n` matrix and an arbitrary
`left` width `k`), and `get_basis()`.  `n` is the TOA dimension of the
model matrices, `m` the basis dimension. -/
structure ModelData where
  n : ℕ
  m : ℕ
  TNT : Matrix (Fin m) (Fin m) ℚ
  phiinvD : PhiInv m
  phiinvP : PhiInv m
  Nsolve : (k : ℕ) → Matrix (Fin n) (Fin n) ℚ → Matrix (Fin n) (Fin k) ℚ →
    Matrix (Fin k) (Fin n) ℚ
  T : Matrix (Fin n) (Fin m) ℚ

/-- A cached marginalized noise matrix together with its dimension. -/
def NmatE : Type := (n : ℕ) × Matrix (Fin n) (Fin n) ℚ

/-- Source lines 150-165, `make_Nmat(phiinv, TNT, Nvec, T)`: form
`Sigma = TNT + diag-or-dense(phiinv)`, Cholesky-factor it (raising
`LinAlgError` if it is not positive definite, before the solves run), set
`TtN = Nvec.solve(np.eye(Nshape), left_array=T)` and
`Ndiag = Nvec.solve(np.eye(Nshape), left_array=np.eye(Nshape))` with
`Nshape = np.shape(T)[0] = n`, and return `Ndiag - TtN.T · cho_solve(cf, TtN)`. -/
def make_Nmat {n m : ℕ} (phiinv : PhiInv m) (TNT : Matrix (Fin m) (Fin m) ℚ)
    (Nvec : (k : ℕ) → Matrix (Fin n) (Fin n) ℚ → Matrix (Fin n) (Fin k) ℚ →
      Matrix (Fin k) (Fin n) ℚ)
    (T : Matrix (Fin n) (Fin m) ℚ) : Except Err (Matrix (Fin n) (Fin n) ℚ) :=
  let Sigma := mkSigma TNT phiinv
  match cho_factor true Sigma with
  | .error e => .error e
  | .ok cf =>
    let TtN := Nvec m 1 T
    let Ndiag := Nvec n 1 1
    let expval2 := cho_solveM cf TtN
    .ok (Ndiag - TtNᵀ * expval2)

/-- The list comprehension of source line 40: build one `Nmat` per pulsar,
propagating the first failure (as the comprehension would propagate the
first raised exception). -/
def buildNmats : List ModelData → Except Err (List NmatE)
  | [] => .ok []
  | md :: mds => do
    let nm ← make_Nmat md.phiinvP md.TNT md.Nsolve md.T
    let rest ← buildNmats mds
    pure (⟨md.n, nm⟩ :: rest)

/-- The `FeStat` instance state: the pulsar list, the (opaque) noise
parameter dictionary, the model built once by `__init__`
(`models.model_cw(...)`), and the mutable `Nmats` cache. -/
structure FeStat where
  psrs : List Pulsar
  params : Option (List (String × ℚ))
  pta : List ModelData
  Nmats : Option (List NmatE)

/-- `FeStat.__init__(psrs, params)` (source lines 16-27): store the pulsar
list and parameters, build the model once (the externally constructed `pta`
is passed in), and initialize the cache to `None`. -/
def FeStat.init (psrs : List Pulsar) (params : Option (List (String × ℚ)))
    (pta : List ModelData) : FeStat :=
  { psrs := psrs, params := params, pta := pta, Nmats := none }

/-- `FeStat.get_Nmats` (source lines 31-42): read `TNTs`, partition-method
`phiinvs`, `Nvecs` and `Ts` from the model and build all the `Nmat`s. -/
def FeStat.get_Nmats (s : FeStat) : Except Err (List NmatE) :=
  buildNmats s.pta

/-- The external numeric environment: `np.sin`, `np.cos`, the cube-root
power `f0 ** (1/3)`, the constant `np.pi`, the antenna-pattern function
`utils.create_gw_antenna_pattern(pos, theta, phi) -> (F_p, F_c, cosMu)`,
and `np.linalg.pinv` on `4 × 4` matrices — which, like numpy's SVD-based
Moore-Penrose pseudo-inverse, is total: it is defined for every input
matrix, singular ones included. -/
structure Env where
  sinf : ℚ → ℚ
  cosf : ℚ → ℚ
  pow13 : ℚ → ℚ
  pi : ℚ
  antenna : Pos → ℚ → ℚ → ℚ × ℚ × ℚ
  pinv4 : Matrix (Fin 4) (Fin 4) ℚ → Matrix (Fin 4) (Fin 4) ℚ

/-- Per-pulsar output of the first loop of `compute_Fe`: the 4-vector `N`
of data inner products and the `4 × 4` matrix `M` of template inner
products. -/
def PsrNM : Type := (Fin 4 → ℚ) × Matrix (Fin 4) (Fin 4) ℚ

/-- The `M[idx, jj, kk]` double loop of source lines 88-90, unrolled
row-major (outer `jj`, inner `kk`), stopping at the first failure as the
first raised exception would. -/
def buildM4 (f : Fin 4 → Fin 4 → Except Err ℚ) : Except Err (Matrix (Fin 4) (Fin 4) ℚ) := do
  let a00 ← f 0 0
  let a01 ← f 0 1
  let a02 ← f 0 2
  let a03 ← f 0 3
  let a10 ← f 1 0
  let a11 ← f 1 1
  let a12 ← f 1 2
  let a13 ← f 1 3
  let a20 ← f 2 0
  let a21 ← f 2 1
  let a22 ← f 2 2
  let a23 ← f 2 3
  let a30 ← f 3 0
  let a31 ← f 3 1
  let a32 ← f 3 2
  let a33 ← f 3 3
  pure (Matrix.of ![![a00, a01, a02, a03], ![a10, a11, a12, a13],
    ![a20, a21, a22, a23], ![a30, a31, a32, a33]])

/-- One iteration of the per-pulsar loop of `compute_Fe` (source lines
66-90): form `Sigma`, build the four signal-template rows
`A[0..3]` (lines 74-78; rows 0/2 are both the sine row and rows 1/3 both
the cosine row, as written), compute `ip1..ip4` and assemble `N` (lines
80-85; note that line 83 passes `A[2, :]`, not `A[3, :]`, to `ip4`), then
fill `M` (lines 87-90). -/
def psrStep (env : Env) (f0 : ℚ) (brave : Bool) (psr : Pulsar) (nme : NmatE)
    (md : ModelData) : Except Err PsrNM :=
  let Sigma := mkSigma md.TNT md.phiinvD
  let A : Fin 4 → List ℚ :=
    ![psr.toas.map fun t => 1 / env.pow13 f0 * env.sinf (2 * env.pi * f0 * t),
      psr.toas.map fun t => 1 / env.pow13 f0 * env.cosf (2 * env.pi * f0 * t),
      psr.toas.map fun t => 1 / env.pow13 f0 * env.sinf (2 * env.pi * f0 * t),
      psr.toas.map fun t => 1 / env.pow13 f0 * env.cosf (2 * env.pi * f0 * t)]
  do
  let ip1 ← innerProduct_rr (A 0) psr.residuals nme.2 md.T Sigma none none brave
  let ip2 ← innerProduct_rr (A 1) psr.residuals nme.2 md.T Sigma none none brave
  let ip3 ← innerProduct_rr (A 2) psr.residuals nme.2 md.T Sigma none none brave
  let ip4 ← innerProduct_rr (A 2) psr.residuals nme.2 md.T Sigma none none brave
  let N : Fin 4 → ℚ := ![ip1, ip2, ip3, ip4]
  let M ← buildM4 fun jj kk =>
    innerProduct_rr (A jj) (A kk) nme.2 md.T Sigma none none brave
  pure (N, M)

/-- The per-pulsar loop of source lines 66-90: a `zip` over the pulsars,
the cached `Nmats`, and the model lists, truncating at the shortest as
Python's `zip` does.  (Rows of `N`/`M` beyond the zip length stay at their
`np.zeros` initialization in the source and contribute nothing to the later
sums, so dropping them is observationally equal.) -/
def psrLoop (env : Env) (f0 : ℚ) (brave : Bool) :
    List Pulsar → List NmatE → List ModelData → Except Err (List PsrNM)
  | psr :: psrs, nme :: nmes, md :: mds => do
    let r ← psrStep env f0 brave psr nme md
    let rest ← psrLoop env f0 brave psrs nmes mds
    pure (r :: rest)
  | _, _, _ => .ok []

/-- The elementwise reweighting pattern applied to `M` (source lines
99-102). -/
def FFmat (Fp Fc : ℚ) : Matrix (Fin 4) (Fin 4) ℚ :=
  Matrix.of ![![Fp ^ 2, Fp ^ 2, Fp * Fc, Fp * Fc],
    ![Fp ^ 2, Fp ^ 2, Fp * Fc, Fp * Fc],
    ![Fp * Fc, Fp * Fc, Fc ^ 2, Fc ^ 2],
    ![Fp * Fc, Fp * Fc, Fc ^ 2, Fc ^ 2]]

/-- The per-pulsar antenna-pattern reweighting loop of source lines 96-102:
`NN[idx, :] *= [F_p, F_p, F_c, F_c]` and `MM[idx] *= FFmat`, elementwise. -/
def scaleNM (env : Env) (gw : ℚ × ℚ) : List Pulsar → List PsrNM → List PsrNM
  | psr :: psrs, nm :: nms =>
    let FpFc := env.antenna psr.pos gw.1 gw.2
    let Fp := FpFc.1
    let Fc := FpFc.2.1
    (fun i => nm.1 i * ![Fp, Fp, Fc, Fc] i,
      Matrix.of fun i j => nm.2 i j * FFmat Fp Fc i j) :: scaleNM env gw psrs nms
  | _, _ => []

/-- `np.sum(NN, axis=0)`. -/
def sumN (l : List PsrNM) : Fin 4 → ℚ :=
  l.foldr (fun x acc => x.1 + acc) 0

/-- `np.sum(MM, axis=0)`. -/
def sumM (l : List PsrNM) : Matrix (Fin 4) (Fin 4) ℚ :=
  l.foldr (fun x acc => x.2 + acc) 0

/-- One iteration of the sky loop (source lines 93-109): reweight every
pulsar's `N`/`M` by its antenna-pattern coefficients at this sky position,
sum over pulsars, pseudo-invert `M_sum`, and return
`0.5 * N_sum · (Minv · N_sum)`.  A total function: no step can fail. -/
def skyStep (env : Env) (psrs : List Pulsar) (NM : List PsrNM) (gw : ℚ × ℚ) : ℚ :=
  let scaled := scaleNM env gw psrs NM
  let Nsum := sumN scaled
  let Msum := sumM scaled
  let Minv := env.pinv4 Msum
  1 / 2 * (Nsum ⬝ᵥ Minv.mulVec Nsum)

/-- The second phase of `compute_Fe` (source lines 92-111) given the
per-pulsar inner products: one statistic value per sky-grid point. -/
def computeFeMain (env : Env) (psrs : List Pulsar) (mds : List ModelData)
    (nms : List NmatE) (f0 : ℚ) (skyloc : List (ℚ × ℚ)) (brave : Bool) :
    Except Err (List ℚ) :=
  match psrLoop env f0 brave psrs nms mds with
  | .error e => .error e
  | .ok NM => .ok (skyloc.map (skyStep env psrs NM))

/-- `FeStat.compute_Fe(f0, gw_skyloc, brave)` (source lines 44-111).
`gw_skyloc` is the `2 × K` sky-location array, modelled as its list of `K`
column pairs `(theta, phi)`.  The returned pair is (value or raised error,
instance state after the call): the only mutation the method performs is
`self.Nmats = self.get_Nmats()` when the cache is still `None` (lines
58-60), and a failure inside `get_Nmats` propagates with the cache left
unset. -/
def FeStat.compute_Fe (env : Env) (s : FeStat) (f0 : ℚ) (gw_skyloc : List (ℚ × ℚ))
    (brave : Bool) : Except Err (List ℚ) × FeStat :=
  match s.Nmats with
  | some nms => (computeFeMain env s.psrs s.pta nms f0 gw_skyloc brave, s)
  | none =>
    match s.get_Nmats with
    | .error e => (.error e, s)
    | .ok nms =>
      (computeFeMain env s.psrs s.pta nms f0 gw_skyloc brave,
        { s with Nmats := some nms })

/-! ## Helper lemmas about the embedded primitives -/

theorem matInv_mul {m : ℕ} (A : Matrix (Fin m) (Fin m) ℚ) (h : A.det ≠ 0) :
    matInv A * A = 1 := by
  rw [matInv_eq, Matrix.smul_mul, Matrix.adjugate_mul, smul_smul,
    inv_mul_cancel₀ h, one_smul]

theorem mul_matInv {m : ℕ} (A : Matrix (Fin m) (Fin m) ℚ) (h : A.det ≠ 0) :
    A * matInv A = 1 := by
  rw [matInv_eq, Matrix.mul_smul, Matrix.mul_adjugate, smul_smul,
    inv_mul_cancel₀ h, one_smul]

theorem leadDet_top {m : ℕ} (A : Matrix (Fin m) (Fin m) ℚ) :
    leadDet A m le_rfl = A.det := by
  unfold leadDet
  have hc : Fin.castLE (le_refl m) = id := funext fun i => Fin.ext rfl
  rw [hc, Matrix.submatrix_id_id, detQ_eq_det]

theorem PosDefQ.det_pos {m : ℕ} {A : Matrix (Fin m) (Fin m) ℚ} (h : PosDefQ A) :
    0 < A.det := by
  have hm := h m le_rfl
  rwa [leadDet_top] at hm

theorem PosDefQ.det_ne_zero {m : ℕ} {A : Matrix (Fin m) (Fin m) ℚ} (h : PosDefQ A) :
    A.det ≠ 0 := ne_of_gt h.det_pos

theorem symUpper_of_symm {m : ℕ} {A : Matrix (Fin m) (Fin m) ℚ} (h : Aᵀ = A) :
    symUpper A = A := by
  ext i j
  by_cases hij : i ≤ j
  · simp [symUpper, hij]
  · have hji : A j i = A i j := congrFun (congrFun h.symm j) i
    simp [symUpper, hij, hji]

theorem matInv_symm {m : ℕ} {A : Matrix (Fin m) (Fin m) ℚ} (h : Aᵀ = A) :
    (matInv A)ᵀ = matInv A := by
  rw [matInv_eq, Matrix.transpose_smul, Matrix.adjugate_transpose, h]

theorem dot_mulVec_symm {m : ℕ} {M : Matrix (Fin m) (Fin m) ℚ} (h : Mᵀ = M)
    (u v : Fin m → ℚ) : u ⬝ᵥ M.mulVec v = v ⬝ᵥ M.mulVec u := by
  rw [Matrix.dotProduct_mulVec, ← Matrix.mulVec_transpose, h, Matrix.dotProduct_comm]

theorem submatrix_cast_self {n m : ℕ} (h : n = n) (T : Matrix (Fin n) (Fin m) ℚ) :
    T.submatrix (Fin.cast h.symm) id = T := by
  have hc : Fin.cast h.symm = id := funext fun i => Fin.ext rfl
  rw [hc, Matrix.submatrix_id_id]

theorem vecOf_map_mul {n : ℕ} (c : ℚ) (w : List ℚ)
    (h : (w.map fun t => c * t).length = n) (h' : w.length = n) :
    vecOf (w.map fun t => c * t) h = c • vecOf w h' := by
  funext i
  simp [vecOf, List.get_eq_getElem, List.getElem_map]

theorem pyBothNone_none_none {m : ℕ} :
    pyBothNone (m := m) none none = .ok true := rfl

theorem innerProductCore_none {n m : ℕ} (x y : Fin n → ℚ)
    (Nmat : Matrix (Fin n) (Fin n) ℚ) (Tmat : Matrix (Fin n) (Fin m) ℚ)
    (Sigma : Matrix (Fin m) (Fin m) ℚ) (brave : Bool) :
    innerProductCore x y Nmat Tmat Sigma none none brave =
      finishIP brave Sigma (Matrix.vecMul x Nmat ⬝ᵥ y)
        (Tmatᵀ.mulVec (Nmat.mulVec x)) (Tmatᵀ.mulVec (Nmat.mulVec y)) := by
  unfold innerProductCore
  rw [pyBothNone_none_none]
  dsimp only
  rw [dif_pos rfl, submatrix_cast_self]
  rfl

theorem finishIP_pd {m : ℕ} (brave : Bool) {Sigma : Matrix (Fin m) (Fin m) ℚ}
    (h : PosDefQ (symUpper Sigma)) (xNy : ℚ) (TNx TNy : Fin m → ℚ) :
    finishIP brave Sigma xNy TNx TNy =
      .ok (xNy - TNx ⬝ᵥ (matInv (symUpper Sigma)).mulVec TNy) := by
  unfold finishIP cho_factor cho_solveV
  cases brave <;> simp [h]

theorem finishIP_not_pd {m : ℕ} (brave : Bool) {Sigma : Matrix (Fin m) (Fin m) ℚ}
    (h : ¬ PosDefQ (symUpper Sigma)) (xNy : ℚ) (TNx TNy : Fin m → ℚ) :
    finishIP brave Sigma xNy TNx TNy = .error .linAlg := by
  unfold finishIP cho_factor
  cases brave <;> simp [h]

/-! ## Inner-Product Engine claims (C2, C5, C9, C10) -/

/-- The value claim C2 ascribes to `innerProduct_rr`:
`x^T N^{-1} y − (T^T N^{-1} x)^T Σ^{-1} (T^T N^{-1} y)`, with `N^{-1}`
represented by the supplied `Nmat` acting as a bilinear form and `Σ^{-1}`
the inverse of `Sigma`. -/
def specInnerProduct {n m : ℕ} (x y : Fin n → ℚ) (Nmat : Matrix (Fin n) (Fin n) ℚ)
    (Tmat : Matrix (Fin n) (Fin m) ℚ) (Sigma : Matrix (Fin m) (Fin m) ℚ) : ℚ :=
  x ⬝ᵥ Nmat.mulVec y -
    (Tmatᵀ.mulVec (Nmat.mulVec x)) ⬝ᵥ
      (matInv Sigma).mulVec (Tmatᵀ.mulVec (Nmat.mulVec y))

theorem finishIP_swap {m : ℕ} (brave : Bool) {Sigma : Matrix (Fin m) (Fin m) ℚ}
    (hS : Sigmaᵀ = Sigma) (a b : ℚ) (hab : a = b) (u v : Fin m → ℚ) :
    finishIP brave Sigma a u v = finishIP brave Sigma b v u := by
  subst hab
  by_cases hpd : PosDefQ (symUpper Sigma)
  · rw [finishIP_pd brave hpd, finishIP_pd brave hpd]
    have hsymU : (symUpper Sigma)ᵀ = symUpper Sigma := by
      rw [symUpper_of_symm hS]; exact hS
    rw [dot_mulVec_symm (matInv_symm hsymU) u v]
  · rw [finishIP_not_pd brave hpd, finishIP_not_pd brave hpd]

theorem innerProductCore_symm {n nT m : ℕ} (x y : Fin n → ℚ)
    (Nmat : Matrix (Fin n) (Fin n) ℚ) (Tmat : Matrix (Fin nT) (Fin m) ℚ)
    (Sigma : Matrix (Fin m) (Fin m) ℚ) (brave : Bool)
    (hN : Nmatᵀ = Nmat) (hS : Sigmaᵀ = Sigma) :
    innerProductCore x y Nmat Tmat Sigma none none brave =
      innerProductCore y x Nmat Tmat Sigma none none brave := by
  have hxNy : Matrix.vecMul x Nmat ⬝ᵥ y = Matrix.vecMul y Nmat ⬝ᵥ x := by
    rw [← Matrix.dotProduct_mulVec, ← Matrix.dotProduct_mulVec, dot_mulVec_symm hN]
  unfold innerProductCore
  rw [pyBothNone_none_none]
  dsimp only
  by_cases hT : nT = n
  · rw [dif_pos hT, dif_pos hT]
    exact finishIP_swap brave hS _ _ hxNy _ _
  · rw [dif_neg hT, dif_neg hT]

theorem innerProduct_rr_eval {nN m : ℕ} (x y : List ℚ)
    (Nmat : Matrix (Fin nN) (Fin nN) ℚ) (Tmat : Matrix (Fin nN) (Fin m) ℚ)
    (Sigma : Matrix (Fin m) (Fin m) ℚ) (brave : Bool)
    (hx : x.length = nN) (hy : y.length = nN)
    (hS : Sigmaᵀ = Sigma) (hpd : PosDefQ Sigma) :
    innerProduct_rr x y Nmat Tmat Sigma none none brave =
      .ok (specInnerProduct (vecOf x hx) (vecOf y hy) Nmat Tmat Sigma) := by
  unfold innerProduct_rr
  rw [dif_pos hx, dif_pos hy, innerProductCore_none,
    finishIP_pd brave (by rwa [symUpper_of_symm hS]),
    symUpper_of_symm hS]
  unfold specInnerProduct
  rw [Matrix.dotProduct_mulVec (vecOf x hx) Nmat (vecOf y hy)]

/-- C2: for equal-length `x` and `y` (matching `Nmat`'s dimension) and a
symmetric positive-definite `Sigma`, `innerProduct_rr(x, y, Nmat, Tmat,
Sigma)` returns `x^T N^{-1} y − (T^T N^{-1} x)^T Σ^{-1} (T^T N^{-1} y)`,
where `N^{-1}` is represented by the supplied `Nmat` acting as a bilinear
form and `Σ^{-1}` is applied via the Cholesky factor-and-solve of `Sigma`.
The function is pure by construction (its embedding is a function with no
state), so it has no side effects. -/
theorem innerProduct_rr_formula {nN m : ℕ} (x y : List ℚ)
    (Nmat : Matrix (Fin nN) (Fin nN) ℚ) (Tmat : Matrix (Fin nN) (Fin m) ℚ)
    (Sigma : Matrix (Fin m) (Fin m) ℚ) (brave : Bool)
    (hx : x.length = nN) (hy : y.length = nN)
    (hS : Sigmaᵀ = Sigma) (hpd : PosDefQ Sigma) :
    innerProduct_rr x y Nmat Tmat Sigma none none brave =
      .ok (specInnerProduct (vecOf x hx) (vecOf y hy) Nmat Tmat Sigma) :=
  innerProduct_rr_eval x y Nmat Tmat Sigma brave hx hy hS hpd

/-- Witness for C2 at a concrete input. -/
theorem innerProduct_rr_formula_witness :
    (([(1 : ℚ)]).length = 1) ∧ ((![![(2 : ℚ)]])ᵀ = ![![(2 : ℚ)]]) ∧
      PosDefQ (![![(2 : ℚ)]]) ∧
      innerProduct_rr [(1 : ℚ)] [(2 : ℚ)] (![![(3 : ℚ)]]) (![![(1 : ℚ)]])
          (![![(2 : ℚ)]]) none none false =
        .ok (specInnerProduct (vecOf [(1 : ℚ)] rfl) (vecOf [(2 : ℚ)] rfl)
          (![![(3 : ℚ)]]) (![![(1 : ℚ)]]) (![![(2 : ℚ)]])) :=
  ⟨rfl, by decide, (posDefQ_one_iff 2).mpr (by norm_num),
    innerProduct_rr_formula [(1 : ℚ)] [(2 : ℚ)] (![![(3 : ℚ)]]) (![![(1 : ℚ)]])
      (![![(2 : ℚ)]]) false rfl rfl (by decide)
      ((posDefQ_one_iff 2).mpr (by norm_num))⟩

/-- C5: the rank-reduced inner product is symmetric in `x` and `y` for
equal-length inputs, symmetric `Nmat` and symmetric `Sigma`. -/
theorem innerProduct_rr_symm {nN nT m : ℕ} (x y : List ℚ)
    (Nmat : Matrix (Fin nN) (Fin nN) ℚ) (Tmat : Matrix (Fin nT) (Fin m) ℚ)
    (Sigma : Matrix (Fin m) (Fin m) ℚ) (brave : Bool)
    (hxy : x.length = y.length) (hN : Nmatᵀ = Nmat) (hS : Sigmaᵀ = Sigma) :
    innerProduct_rr x y Nmat Tmat Sigma none none brave =
      innerProduct_rr y x Nmat Tmat Sigma none none brave := by
  unfold innerProduct_rr
  by_cases hx : x.length = nN
  · have hy : y.length = nN := by rw [← hxy]; exact hx
    rw [dif_pos hx, dif_pos hy, dif_pos hy, dif_pos hx]
    exact innerProductCore_symm _ _ _ _ _ _ hN hS
  · have hy : ¬ y.length = nN := fun h => hx (by rw [hxy, h])
    rw [dif_neg hx, dif_neg hy]

/-- Witness for C5 at a concrete input. -/
theorem innerProduct_rr_symm_witness :
    (([(1 : ℚ), 0]).length = ([(0 : ℚ), 1]).length) ∧
      ((![![(1 : ℚ), 0], ![0, 2]])ᵀ = ![![(1 : ℚ), 0], ![0, 2]]) ∧
      innerProduct_rr [(1 : ℚ), 0] [(0 : ℚ), 1] (![![(1 : ℚ), 0], ![0, 2]])
          (![![(1 : ℚ)], ![1]]) (![![(2 : ℚ)]]) none none true =
        innerProduct_rr [(0 : ℚ), 1] [(1 : ℚ), 0] (![![(1 : ℚ), 0], ![0, 2]])
          (![![(1 : ℚ)], ![1]]) (![![(2 : ℚ)]]) none none true :=
  ⟨rfl, by decide,
    innerProduct_rr_symm [(1 : ℚ), 0] [(0 : ℚ), 1] (![![(1 : ℚ), 0], ![0, 2]])
      (![![(1 : ℚ)], ![1]]) (![![(2 : ℚ)]]) true rfl (by decide) (by decide)⟩

/-- C9: even with `brave = True`, a non-positive-definite `Sigma` still
makes `innerProduct_rr` fail with a linear-algebra error: the flag only
switches off the finite-value screening (`check_finite=False`), which in
exact arithmetic changes nothing, while the Cholesky positive-definiteness
test runs in both modes.  Stated for every value of `brave` at once. -/
theorem innerProduct_rr_nonPD_raises {nN m : ℕ} (x y : List ℚ)
    (Nmat : Matrix (Fin nN) (Fin nN) ℚ) (Tmat : Matrix (Fin nN) (Fin m) ℚ)
    (Sigma : Matrix (Fin m) (Fin m) ℚ) (brave : Bool)
    (hx : x.length = nN) (hy : y.length = nN)
    (hS : Sigmaᵀ = Sigma) (hpd : ¬ PosDefQ Sigma) :
    innerProduct_rr x y Nmat Tmat Sigma none none brave = .error .linAlg := by
  unfold innerProduct_rr
  rw [dif_pos hx, dif_pos hy, innerProductCore_none,
    finishIP_not_pd brave (by rwa [symUpper_of_symm hS])]

/-- Witness for C9 at a concrete non-positive-definite `Sigma`, in `brave`
mode. -/
theorem innerProduct_rr_nonPD_raises_witness :
    (((![![(-1 : ℚ)]]))ᵀ = ![![(-1 : ℚ)]]) ∧ ¬ PosDefQ (![![(-1 : ℚ)]]) ∧
      innerProduct_rr [(1 : ℚ)] [(1 : ℚ)] (![![(1 : ℚ)]]) (![![(1 : ℚ)]])
          (![![(-1 : ℚ)]]) none none true = .error .linAlg :=
  ⟨by decide, fun h => absurd ((posDefQ_one_iff (-1)).mp h) (by norm_num),
    innerProduct_rr_nonPD_raises [(1 : ℚ)] [(1 : ℚ)] (![![(1 : ℚ)]])
      (![![(1 : ℚ)]]) (![![(-1 : ℚ)]]) true rfl rfl (by decide)
      (fun h => absurd ((posDefQ_one_iff (-1)).mp h) (by norm_num))⟩

/-- C10: passing precomputed `TNx`/`TNy` as arrays of length greater than
one makes the guard `TNx == None and TNy == None` evaluate the truth value
of an elementwise comparison array, which raises `ValueError`; the
precomputed products are never used. -/
theorem innerProduct_rr_precomputed_guard {nN nT m : ℕ} (x y : List ℚ)
    (Nmat : Matrix (Fin nN) (Fin nN) ℚ) (Tmat : Matrix (Fin nT) (Fin m) ℚ)
    (Sigma : Matrix (Fin m) (Fin m) ℚ) (tx ty : Fin m → ℚ) (brave : Bool)
    (hx : x.length = nN) (hy : y.length = nN) (hm : 1 < m) :
    innerProduct_rr x y Nmat Tmat Sigma (some tx) (some ty) brave =
      .error .valueError := by
  unfold innerProduct_rr
  rw [dif_pos hx, dif_pos hy]
  unfold innerProductCore
  have hg : pyBothNone (some tx) (some ty) = .error .valueError := by
    unfold pyBothNone pyEqNoneTruth
    rw [if_neg (by omega : ¬ m = 1)]
    rfl
  rw [hg]

/-- Witness for C10 with length-2 precomputed arrays. -/
theorem innerProduct_rr_precomputed_guard_witness :
    (([(1 : ℚ)]).length = 1) ∧ (1 < 2) ∧
      innerProduct_rr [(1 : ℚ)] [(1 : ℚ)] (![![(1 : ℚ)]]) (![![(1 : ℚ), 0]])
          (![![(1 : ℚ), 0], ![0, 1]]) (some ![1, 1]) (some ![1, 1]) false =
        .error .valueError :=
  ⟨rfl, by decide,
    innerProduct_rr_precomputed_guard [(1 : ℚ)] [(1 : ℚ)] (![![(1 : ℚ)]])
      (![![(1 : ℚ), 0]]) (![![(1 : ℚ), 0], ![0, 1]]) (![1, 1]) (![1, 1]) false
      rfl rfl (by decide)⟩

/-! ## Noise-Marginalization Matrix Builder claim (C3) -/

theorem transpose_fin_one (A : Matrix (Fin 1) (Fin 1) ℚ) : Aᵀ = A := by
  ext i j
  rw [Subsingleton.elim i j]
  rfl

theorem posDefQ_fin_one {A : Matrix (Fin 1) (Fin 1) ℚ} (h : 0 < A 0 0) :
    PosDefQ A := by
  intro k hk
  interval_cases k
  · exact one_pos
  · rw [leadDet_one]; exact h

theorem make_Nmat_eval {n m : ℕ} (phiinv : PhiInv m)
    (TNT : Matrix (Fin m) (Fin m) ℚ)
    (Nvec : (k : ℕ) → Matrix (Fin n) (Fin n) ℚ → Matrix (Fin n) (Fin k) ℚ →
      Matrix (Fin k) (Fin n) ℚ)
    (T : Matrix (Fin n) (Fin m) ℚ)
    (hS : (mkSigma TNT phiinv)ᵀ = mkSigma TNT phiinv)
    (hpd : PosDefQ (mkSigma TNT phiinv)) :
    make_Nmat phiinv TNT Nvec T =
      .ok (Nvec n 1 1 -
        (Nvec m 1 T)ᵀ * (matInv (mkSigma TNT phiinv) * Nvec m 1 T)) := by
  unfold make_Nmat cho_factor cho_solveM
  dsimp only
  rw [symUpper_of_symm hS, if_pos hpd]

/-- C3: `make_Nmat(phiinv, TNT, Nvec, T)` forms
`Sigma = TNT + diag(phiinv)` when `phiinv` is 1-D (else `TNT + phiinv`),
Cholesky-factors it, computes `TtN = Nvec.solve(identity, left=T)` and
`Ndiag = Nvec.solve(identity, left=identity)` (identities of size
`n_toa = np.shape(T)[0]`), and returns the `n_toa × n_toa` matrix
`Ndiag − TtNᵀ · Σ⁻¹ · TtN` — stated here for symmetric positive-definite
`Sigma`, where `Σ⁻¹` is realized by the Cholesky solve. -/
theorem make_Nmat_formula {n m : ℕ} (phiinv : PhiInv m)
    (TNT : Matrix (Fin m) (Fin m) ℚ)
    (Nvec : (k : ℕ) → Matrix (Fin n) (Fin n) ℚ → Matrix (Fin n) (Fin k) ℚ →
      Matrix (Fin k) (Fin n) ℚ)
    (T : Matrix (Fin n) (Fin m) ℚ)
    (hS : (mkSigma TNT phiinv)ᵀ = mkSigma TNT phiinv)
    (hpd : PosDefQ (mkSigma TNT phiinv)) :
    make_Nmat phiinv TNT Nvec T =
      .ok (Nvec n 1 1 -
        (Nvec m 1 T)ᵀ * (matInv (mkSigma TNT phiinv) * Nvec m 1 T)) :=
  make_Nmat_eval phiinv TNT Nvec T hS hpd

/-- Witness for C3 at a concrete one-dimensional model, covering the 1-D
(`diag`) branch of the `phiinv` dispatch. -/
theorem make_Nmat_formula_witness :
    ((mkSigma (![![(1 : ℚ)]]) (.vec ![1]))ᵀ = mkSigma (![![(1 : ℚ)]]) (.vec ![1])) ∧
      PosDefQ (mkSigma (![![(1 : ℚ)]]) (.vec ![1])) ∧
      make_Nmat (.vec ![1]) (![![(1 : ℚ)]]) (fun _k o l => lᵀ * o) (![![(5 : ℚ)]]) =
        .ok ((fun _k (o : Matrix (Fin 1) (Fin 1) ℚ) (l : Matrix (Fin 1) (Fin 1) ℚ) =>
            lᵀ * o) 1 1 1 -
          ((fun _k (o : Matrix (Fin 1) (Fin 1) ℚ) (l : Matrix (Fin 1) (Fin 1) ℚ) =>
            lᵀ * o) 1 1 (![![(5 : ℚ)]]))ᵀ *
          (matInv (mkSigma (![![(1 : ℚ)]]) (.vec ![1])) *
            (fun _k (o : Matrix (Fin 1) (Fin 1) ℚ) (l : Matrix (Fin 1) (Fin 1) ℚ) =>
            lᵀ * o) 1 1 (![![(5 : ℚ)]]))) :=
  have hpd : PosDefQ (mkSigma (![![(1 : ℚ)]]) (.vec ![1])) :=
    posDefQ_fin_one (by simp [mkSigma, Matrix.diagonal])
  ⟨transpose_fin_one _, hpd,
    make_Nmat_formula (.vec ![1]) (![![(1 : ℚ)]]) (fun _k o l => lᵀ * o)
      (![![(5 : ℚ)]]) (transpose_fin_one _) hpd⟩

/-! ## Fe-Statistic Evaluator: sky maximization (C4) -/

/-- The statistic at one sky point as claim C4 words it: for each pulsar
take `(F+, F×)` from the antenna-pattern function, scale its `N`-vector
elementwise by `(F+, F+, F×, F×)` and its `M`-matrix elementwise by the
outer-product pattern of `(F+, F+, F×, F×)`, sum across pulsars into
`N_sum`/`M_sum`, and return `0.5 · N_sumᵀ · pinv(M_sum) · N_sum` with
`pinv` the (total) Moore-Penrose pseudo-inverse. -/
def specStat (env : Env) (psrs : List Pulsar) (NM : List PsrNM) (gw : ℚ × ℚ) : ℚ :=
  let contrib := (psrs.zip NM).map fun pnm =>
    let Fp := (env.antenna pnm.1.pos gw.1 gw.2).1
    let Fc := (env.antenna pnm.1.pos gw.1 gw.2).2.1
    ((fun i => pnm.2.1 i * ![Fp, Fp, Fc, Fc] i : Fin 4 → ℚ),
      (Matrix.of fun i j => pnm.2.2 i j *
        ![![Fp ^ 2, Fp ^ 2, Fp * Fc, Fp * Fc],
          ![Fp ^ 2, Fp ^ 2, Fp * Fc, Fp * Fc],
          ![Fp * Fc, Fp * Fc, Fc ^ 2, Fc ^ 2],
          ![Fp * Fc, Fp * Fc, Fc ^ 2, Fc ^ 2]] i j : Matrix (Fin 4) (Fin 4) ℚ))
  let Nsum : Fin 4 → ℚ := (contrib.map Prod.fst).foldr (· + ·) 0
  let Msum : Matrix (Fin 4) (Fin 4) ℚ := (contrib.map Prod.snd).foldr (· + ·) 0
  1 / 2 * (Nsum ⬝ᵥ (env.pinv4 Msum).mulVec Nsum)

theorem scaleNM_eq_zip (env : Env) (gw : ℚ × ℚ) :
    ∀ (psrs : List Pulsar) (NM : List PsrNM),
      scaleNM env gw psrs NM = (psrs.zip NM).map fun pnm =>
        ((fun i => pnm.2.1 i * ![(env.antenna pnm.1.pos gw.1 gw.2).1,
            (env.antenna pnm.1.pos gw.1 gw.2).1,
            (env.antenna pnm.1.pos gw.1 gw.2).2.1,
            (env.antenna pnm.1.pos gw.1 gw.2).2.1] i : Fin 4 → ℚ),
          Matrix.of fun i j => pnm.2.2 i j *
            FFmat (env.antenna pnm.1.pos gw.1 gw.2).1
              (env.antenna pnm.1.pos gw.1 gw.2).2.1 i j)
  | [], _ => rfl
  | _ :: _, [] => rfl
  | p :: ps, q :: qs => by
    simp only [List.zip_cons_cons, List.map_cons, scaleNM]
    rw [scaleNM_eq_zip env gw ps qs]

theorem skyStep_eq_specStat (env : Env) (psrs : List Pulsar) (NM : List PsrNM)
    (gw : ℚ × ℚ) : skyStep env psrs NM gw = specStat env psrs NM gw := by
  unfold skyStep specStat sumN sumM
  rw [scaleNM_eq_zip]
  dsimp only
  simp only [List.foldr_map, List.map_map]
  rfl

/-- C4: when the cache is filled and the per-pulsar loop succeeds with
inner products `NM`, `compute_Fe` returns exactly one scalar per sky-grid
point, namely the claim's `0.5 · N_sumᵀ · pinv(M_sum) · N_sum` with
`N_sum`/`M_sum` the antenna-scaled sums over pulsars (`specStat`); the sky
phase itself never fails (it is a total `List.map`), whatever `M_sum` is —
`pinv` is total, singular matrices included. -/
theorem compute_Fe_sky_maximization (env : Env) (s : FeStat) (f0 : ℚ)
    (sky : List (ℚ × ℚ)) (brave : Bool) (nms : List NmatE) (NM : List PsrNM)
    (hc : s.Nmats = some nms)
    (hp : psrLoop env f0 brave s.psrs nms s.pta = .ok NM) :
    FeStat.compute_Fe env s f0 sky brave =
      (.ok (sky.map (specStat env s.psrs NM)), s) := by
  unfold FeStat.compute_Fe computeFeMain
  rw [hc]
  dsimp only
  rw [hp]
  dsimp only
  have hs : skyStep env s.psrs NM = specStat env s.psrs NM :=
    funext fun gw => skyStep_eq_specStat env s.psrs NM gw
  rw [hs]

/-- A trivial concrete environment for witnesses. -/
def envW : Env :=
  { sinf := fun _ => 0, cosf := fun _ => 1, pow13 := fun _ => 1, pi := 0,
    antenna := fun _ _ _ => (1, 1, 1), pinv4 := fun M => M }

/-- Witness for C4 at a concrete (cache-filled) instance. -/
theorem compute_Fe_sky_maximization_witness :
    ((⟨[], none, [], some []⟩ : FeStat).Nmats = some []) ∧
      (psrLoop envW 1 false ([] : List Pulsar) [] [] = .ok []) ∧
      FeStat.compute_Fe envW ⟨[], none, [], some []⟩ 1 [(0, 0)] false =
        (.ok ([(0, 0)].map (specStat envW [] [])), ⟨[], none, [], some []⟩) :=
  ⟨rfl, rfl,
    compute_Fe_sky_maximization envW ⟨[], none, [], some []⟩ 1 [(0, 0)] false
      [] [] rfl rfl⟩

/-! ## Fe-Statistic Evaluator: residual-scaling homogeneity (C6) -/

/-- Scale one pulsar's residuals by `c` (its TOAs and position are
untouched). -/
def scalePulsar (c : ℚ) (p : Pulsar) : Pulsar :=
  { p with residuals := p.residuals.map fun t => c * t }

/-- Scale every pulsar's residuals by `c`, leaving the model, parameters
and cache untouched. -/
def scaleResiduals (c : ℚ) (s : FeStat) : FeStat :=
  { s with psrs := s.psrs.map (scalePulsar c) }

theorem finishIP_scale {m : ℕ} (brave : Bool) (Sigma : Matrix (Fin m) (Fin m) ℚ)
    (a c : ℚ) (u v : Fin m → ℚ) :
    finishIP brave Sigma (c * a) u (c • v) =
      (finishIP brave Sigma a u v).map fun r => c * r := by
  by_cases hpd : PosDefQ (symUpper Sigma)
  · rw [finishIP_pd brave hpd, finishIP_pd brave hpd]
    dsimp [Except.map]
    rw [Matrix.mulVec_smul, Matrix.dotProduct_smul, smul_eq_mul]
    ring_nf
  · rw [finishIP_not_pd brave hpd, finishIP_not_pd brave hpd]
    rfl

theorem innerProductCore_scale_right {n nT m : ℕ} (x y : Fin n → ℚ) (c : ℚ)
    (Nmat : Matrix (Fin n) (Fin n) ℚ) (Tmat : Matrix (Fin nT) (Fin m) ℚ)
    (Sigma : Matrix (Fin m) (Fin m) ℚ) (brave : Bool) :
    innerProductCore x (c • y) Nmat Tmat Sigma none none brave =
      (innerProductCore x y Nmat Tmat Sigma none none brave).map fun v => c * v := by
  unfold innerProductCore
  rw [pyBothNone_none_none]
  dsimp only
  by_cases hT : nT = n
  · rw [dif_pos hT, dif_pos hT]
    rw [show Matrix.vecMul x Nmat ⬝ᵥ (c • y) = c * (Matrix.vecMul x Nmat ⬝ᵥ y) by
        rw [Matrix.dotProduct_smul, smul_eq_mul],
      show Nmat.mulVec (c • y) = c • Nmat.mulVec y from Matrix.mulVec_smul Nmat c y,
      show ((Tmat.submatrix (Fin.cast hT.symm) id)ᵀ).mulVec (c • Nmat.mulVec y) =
          c • ((Tmat.submatrix (Fin.cast hT.symm) id)ᵀ).mulVec (Nmat.mulVec y) from
        Matrix.mulVec_smul _ c _]
    exact finishIP_scale brave Sigma _ c _ _
  · rw [dif_neg hT, dif_neg hT]
    rfl

theorem innerProduct_rr_scale_right {nN nT m : ℕ} (x w : List ℚ) (c : ℚ)
    (Nmat : Matrix (Fin nN) (Fin nN) ℚ) (Tmat : Matrix (Fin nT) (Fin m) ℚ)
    (Sigma : Matrix (Fin m) (Fin m) ℚ) (brave : Bool) :
    innerProduct_rr (x) (w.map fun t => c * t) Nmat Tmat Sigma none none brave =
      (innerProduct_rr x w Nmat Tmat Sigma none none brave).map fun v => c * v := by
  unfold innerProduct_rr
  by_cases hx : x.length = nN
  · by_cases hw : w.length = nN
    · have hw' : (w.map fun t => c * t).length = nN := by simpa using hw
      rw [dif_pos hx, dif_pos hx, dif_pos hw, dif_pos hw',
        vecOf_map_mul c w hw' hw]
      exact innerProductCore_scale_right _ _ c _ _ _ brave
    · have hw' : ¬ (w.map fun t => c * t).length = nN := by simpa using hw
      rw [dif_pos hx, dif_pos hx, dif_neg hw, dif_neg hw']
      rfl
  · rw [dif_neg hx, dif_neg hx]
    rfl

theorem smul_vec4 (c a b d e : ℚ) :
    (![c * a, c * b, c * d, c * e] : Fin 4 → ℚ) = c • ![a, b, d, e] := by
  funext i
  fin_cases i <;> simp

theorem except_bind_ok {α β : Type} (a : α) (f : α → Except Err β) :
    (Except.ok a : Except Err α) >>= f = f a := rfl

theorem except_bind_error {α β : Type} (e : Err) (f : α → Except Err β) :
    (Except.error e : Except Err α) >>= f = .error e := rfl

theorem except_map_ok {α β : Type} (a : α) (f : α → β) :
    (Except.ok a : Except Err α).map f = .ok (f a) := rfl

theorem except_map_error {α β : Type} (e : Err) (f : α → β) :
    (Except.error e : Except Err α).map f = .error e := rfl

theorem except_pure {α : Type} (a : α) : (pure a : Except Err α) = .ok a := rfl

theorem scale_do_shape (c : ℚ) (a b : Except Err ℚ)
    (MM : Except Err (Matrix (Fin 4) (Fin 4) ℚ)) :
    (do
      let ip1 ← a.map fun v => c * v
      let ip2 ← b.map fun v => c * v
      let ip3 ← a.map fun v => c * v
      let ip4 ← a.map fun v => c * v
      let N : Fin 4 → ℚ := ![ip1, ip2, ip3, ip4]
      let M ← MM
      pure (N, M) : Except Err PsrNM) =
      (do
        let ip1 ← a
        let ip2 ← b
        let ip3 ← a
        let ip4 ← a
        let N : Fin 4 → ℚ := ![ip1, ip2, ip3, ip4]
        let M ← MM
        pure (N, M) : Except Err PsrNM).map fun q => ((c • q.1 : Fin 4 → ℚ), q.2) := by
  cases a <;> cases b <;> cases MM <;>
    simp only [except_map_ok, except_map_error, except_bind_ok, except_bind_error,
      except_pure, smul_vec4]

theorem psrStep_scale (env : Env) (f0 : ℚ) (brave : Bool) (c : ℚ) (p : Pulsar)
    (nme : NmatE) (md : ModelData) :
    psrStep env f0 brave (scalePulsar c p) nme md =
      (psrStep env f0 brave p nme md).map fun q => ((c • q.1 : Fin 4 → ℚ), q.2) := by
  unfold psrStep
  dsimp only [scalePulsar]
  simp only [innerProduct_rr_scale_right]
  exact scale_do_shape c _ _ _

theorem psrLoop_scale (env : Env) (f0 : ℚ) (brave : Bool) (c : ℚ) :
    ∀ (psrs : List Pulsar) (nms : List NmatE) (mds : List ModelData),
      psrLoop env f0 brave (psrs.map (scalePulsar c)) nms mds =
        (psrLoop env f0 brave psrs nms mds).map
          (List.map fun q => (c • q.1, q.2))
  | [], nms, mds => by cases nms <;> cases mds <;> rfl
  | _ :: _, [], mds => rfl
  | _ :: _, _ :: _, [] => rfl
  | p :: ps, nm :: nms, md :: mds => by
    simp only [List.map_cons, psrLoop]
    rw [psrStep_scale, psrLoop_scale env f0 brave c ps nms mds]
    cases psrStep env f0 brave p nm md <;>
      cases psrLoop env f0 brave ps nms mds <;>
        simp only [except_map_ok, except_map_error, except_bind_ok,
          except_bind_error, except_pure, List.map_cons]

theorem scaleNM_scale (env : Env) (gw : ℚ × ℚ) (c : ℚ) :
    ∀ (psrs : List Pulsar) (NM : List PsrNM),
      scaleNM env gw (psrs.map (scalePulsar c))
          (NM.map fun q => (c • q.1, q.2)) =
        (scaleNM env gw psrs NM).map fun q => (c • q.1, q.2)
  | [], _ => rfl
  | _ :: _, [] => rfl
  | p :: ps, q :: qs => by
    simp only [List.map_cons, scaleNM, scalePulsar]
    rw [scaleNM_scale env gw c ps qs]
    refine congrArg (· :: _) (Prod.ext ?_ rfl)
    funext i
    simp only [Pi.smul_apply, smul_eq_mul]
    ring

theorem sumN_map_scale (c : ℚ) (l : List PsrNM) :
    sumN (l.map fun q => (c • q.1, q.2)) = c • sumN l := by
  induction l with
  | nil => exact (smul_zero c).symm
  | cons q l ih =>
    simp only [List.map_cons, sumN, List.foldr_cons] at ih ⊢
    rw [ih, smul_add]

theorem sumM_map_scale (c : ℚ) (l : List PsrNM) :
    sumM (l.map fun q => (c • q.1, q.2)) = sumM l := by
  induction l with
  | nil => rfl
  | cons q l ih =>
    simp only [List.map_cons, sumM, List.foldr_cons] at ih ⊢
    rw [ih]

theorem skyStep_scale (env : Env) (c : ℚ) (psrs : List Pulsar) (NM : List PsrNM)
    (gw : ℚ × ℚ) :
    skyStep env (psrs.map (scalePulsar c)) (NM.map fun q => (c • q.1, q.2)) gw =
      c ^ 2 * skyStep env psrs NM gw := by
  unfold skyStep
  dsimp only
  rw [scaleNM_scale, sumN_map_scale, sumM_map_scale,
    Matrix.mulVec_smul, Matrix.dotProduct_smul, Matrix.smul_dotProduct,
    smul_eq_mul, smul_eq_mul]
  ring

theorem computeFeMain_scale (env : Env) (psrs : List Pulsar) (mds : List ModelData)
    (nms : List NmatE) (f0 c : ℚ) (sky : List (ℚ × ℚ)) (brave : Bool) (fs : List ℚ)
    (h : computeFeMain env psrs mds nms f0 sky brave = .ok fs) :
    computeFeMain env (psrs.map (scalePulsar c)) mds nms f0 sky brave =
      .ok (fs.map fun v => c ^ 2 * v) := by
  unfold computeFeMain at h ⊢
  cases hp : psrLoop env f0 brave psrs nms mds with
  | error e => rw [hp] at h; exact Except.noConfusion h
  | ok NM =>
    simp only [hp, Except.ok.injEq] at h
    have hfun : skyStep env (psrs.map (scalePulsar c)) (NM.map fun q => (c • q.1, q.2)) =
        fun gw => c ^ 2 * skyStep env psrs NM gw :=
      funext fun gw => skyStep_scale env c psrs NM gw
    rw [psrLoop_scale, hp]
    dsimp only [Except.map]
    rw [hfun, ← h, List.map_map]
    rfl

/-- C6: replacing every pulsar's residuals by `c·r` for a positive scalar
`c` multiplies every entry of the statistic sequence returned by
`compute_Fe` by `c²`, with the same frequency, sky grid and noise-model
inputs.  (The quadratic-form homogeneity in fact holds for every `c`;
positivity is carried as the claim states it.) -/
theorem compute_Fe_residual_scaling (env : Env) (s : FeStat) (f0 c : ℚ)
    (sky : List (ℚ × ℚ)) (brave : Bool) (fs : List ℚ) (_hc : 0 < c)
    (h : (FeStat.compute_Fe env s f0 sky brave).1 = .ok fs) :
    (FeStat.compute_Fe env (scaleResiduals c s) f0 sky brave).1 =
      .ok (fs.map fun v => c ^ 2 * v) := by
  unfold FeStat.compute_Fe at h ⊢
  cases hN : s.Nmats with
  | some nms =>
    rw [hN] at h
    dsimp only at h
    rw [show (scaleResiduals c s).Nmats = s.Nmats from rfl, hN]
    dsimp only [scaleResiduals]
    exact computeFeMain_scale env s.psrs s.pta nms f0 c sky brave fs h
  | none =>
    rw [hN] at h
    dsimp only at h
    rw [show (scaleResiduals c s).Nmats = s.Nmats from rfl, hN]
    cases hg : s.get_Nmats with
    | error e => rw [hg] at h; exact Except.noConfusion h
    | ok nms =>
      rw [hg] at h
      dsimp only at h
      have hg' : (scaleResiduals c s).get_Nmats = .ok nms := hg
      rw [hg']
      dsimp only [scaleResiduals]
      exact computeFeMain_scale env s.psrs s.pta nms f0 c sky brave fs h

/-- Witness for C6 at a concrete instance. -/
theorem compute_Fe_residual_scaling_witness :
    (0 < (2 : ℚ)) ∧
      ((FeStat.compute_Fe envW ⟨[], none, [], some []⟩ 1 [(0, 0)] false).1 =
        .ok [skyStep envW [] [] (0, 0)]) ∧
      (FeStat.compute_Fe envW (scaleResiduals 2 ⟨[], none, [], some []⟩) 1
          [(0, 0)] false).1 =
        .ok ([skyStep envW [] [] (0, 0)].map fun v => (2 : ℚ) ^ 2 * v) :=
  ⟨by norm_num, rfl,
    compute_Fe_residual_scaling envW ⟨[], none, [], some []⟩ 1 2 [(0, 0)] false
      [skyStep envW [] [] (0, 0)] (by norm_num) rfl⟩

/-! ## Fe-Statistic Evaluator: cache discipline (C8) -/

/-- C8: the `Nmats` cache is built lazily and is the only mutation.
Three parts: (i) after `__init__` the cache is `None`; (ii) a `compute_Fe`
call that finds the cache empty populates it — once — with exactly the
`get_Nmats()` result, touching no other field of the instance (the
resulting state is `{ s with Nmats := some nms }`); (iii) a call that
finds the cache filled returns the instance state entirely unchanged, so
later calls never recompute it.  The embedding is a pure state-passing
function, so no external state can be affected. -/
theorem feStat_cache_discipline (env : Env) (f0 : ℚ) (sky : List (ℚ × ℚ))
    (brave : Bool) :
    (∀ psrs params pta, (FeStat.init psrs params pta).Nmats = none) ∧
    (∀ (s : FeStat) (nms : List NmatE), s.Nmats = none → s.get_Nmats = .ok nms →
      (FeStat.compute_Fe env s f0 sky brave).2 = { s with Nmats := some nms }) ∧
    (∀ (s : FeStat) (nms : List NmatE), s.Nmats = some nms →
      (FeStat.compute_Fe env s f0 sky brave).2 = s) := by
  refine ⟨fun _ _ _ => rfl, ?_, ?_⟩
  · intro s nms h0 hg
    unfold FeStat.compute_Fe
    rw [h0]
    dsimp only
    rw [hg]
  · intro s nms h
    unfold FeStat.compute_Fe
    rw [h]

/-- Witness for C8 at a concrete filled-cache instance. -/
theorem feStat_cache_discipline_witness :
    ((FeStat.init [] none []).Nmats = none) ∧
      ((⟨[], none, [], some []⟩ : FeStat).Nmats = some []) ∧
      (FeStat.compute_Fe envW ⟨[], none, [], some []⟩ 1 [] false).2 =
        (⟨[], none, [], some []⟩ : FeStat) :=
  ⟨(feStat_cache_discipline envW 1 [] false).1 [] none [], rfl,
    (feStat_cache_discipline envW 1 [] false).2.2 _ [] rfl⟩

/-! ## The fourth N entry (C1) and shape handling (C7), on concrete runs -/

/-- Concrete one-TOA / one-basis-function model data for concrete runs:
`TNT = [[1]]`, both phi-inverses the 1-D vector `[1]` (so
`Sigma = [[2]]`, positive definite), a noise descriptor whose `solve`
returns `leftᵀ · other`, and the basis matrix `T = [[0]]` (so the
rank-reduced correction term vanishes). -/
def mdW : ModelData :=
  { n := 1, m := 1, TNT := ![![1]], phiinvD := .vec ![1], phiinvP := .vec ![1],
    Nsolve := fun _k o l => lᵀ * o, T := ![![0]] }

theorem mkSigmaW_pd : PosDefQ (mkSigma (![![(1 : ℚ)]]) (.vec ![1])) :=
  posDefQ_fin_one (by simp [mkSigma, Matrix.diagonal])

/-- On the concrete model of `mdW`, the rank-reduced inner product of the
one-element lists `[a]` and `[b]` is just `a * b` (identity white-noise
weighting, vanishing correction). -/
theorem ip_simple (a b : ℚ) :
    innerProduct_rr [a] [b] (![![(1 : ℚ)]]) (![![(0 : ℚ)]])
      (mkSigma (![![(1 : ℚ)]]) (.vec ![1])) none none false = .ok (a * b) := by
  rw [innerProduct_rr_eval [a] [b] _ _ _ false rfl rfl (transpose_fin_one _)
      mkSigmaW_pd]
  congr 1
  unfold specInnerProduct vecOf
  simp [Matrix.mulVec, Matrix.dotProduct, Fin.sum_univ_one]

theorem except_bind_eq_ok {α β : Type} {x : Except Err α} {f : α → Except Err β}
    {b : β} (h : x >>= f = .ok b) : ∃ a, x = .ok a ∧ f a = .ok b := by
  cases x with
  | error e =>
    exact Except.noConfusion (show (Except.error e : Except Err β) = .ok b from h)
  | ok a => exact ⟨a, rfl, h⟩

/-- C1 is a code bug (source line 83 passes `A[2, :]` where `A[3, :]` is
meant): on the concrete input below — one pulsar with `toas = [0]`,
`residuals = [1]`, identity `Nmat`, zero basis matrix, `Sigma = [[2]]`,
and an environment with `sin ↦ 0`, `cos ↦ 1`, `f0^(1/3) ↦ 1` — the
per-pulsar step succeeds and the *fourth* entry of its `N`-vector is `0`,
the inner product of the (sine) row `A[2]` with the residuals; whereas the
inner product of row `A[3]` (the cosine row built on source line 78, here
spelled out as the claim designates it) with the residuals is `1 ≠ 0`. -/
theorem psrStep_N4_is_A2_ip :
    ((psrStep envW 1 false ⟨[0], [1], (0, 0, 0)⟩ ⟨1, ![![(1 : ℚ)]]⟩ mdW).map
        fun q => q.1 3) = .ok 0 ∧
      innerProduct_rr
          ([(0 : ℚ)].map fun t => 1 / envW.pow13 1 * envW.cosf (2 * envW.pi * 1 * t))
          [(1 : ℚ)] (![![(1 : ℚ)]]) mdW.T (mkSigma mdW.TNT mdW.phiinvD)
          none none false = .ok 1 := by
  constructor
  · unfold psrStep
    dsimp only [mdW]
    simp only [List.map_cons, List.map_nil, envW]
    norm_num
    simp only [buildM4, Matrix.cons_val_zero, Matrix.cons_val_one, Matrix.head_cons,
      Matrix.cons_val_two, Matrix.cons_val_three, Matrix.tail_cons]
    simp only [ip_simple, except_bind_ok, except_pure]
    norm_num [except_map_ok, except_bind_ok]
  · dsimp only [mdW]
    simp only [List.map_cons, List.map_nil, envW]
    norm_num
    simp only [ip_simple]
    norm_num

theorem psrStep_res_mismatch (env : Env) (f0 : ℚ) (brave : Bool) (p : Pulsar)
    (nme : NmatE) (md : ModelData)
    (htoas : p.toas.length = nme.1) (hres : p.residuals.length ≠ nme.1) :
    psrStep env f0 brave p nme md = .error .valueError := by
  unfold psrStep
  dsimp only
  simp only [Matrix.cons_val_zero]
  have h1 : innerProduct_rr
      (p.toas.map fun t => 1 / env.pow13 f0 * env.sinf (2 * env.pi * f0 * t))
      p.residuals nme.2 md.T (mkSigma md.TNT md.phiinvD) none none brave =
      .error .valueError := by
    unfold innerProduct_rr
    rw [dif_pos (by simpa using htoas), dif_neg hres]
  rw [h1]
  rfl

/-- C7 amended: `compute_Fe` performs no upfront shape validation, and the
source defines no `ShapeMismatchError` (the error type of the embedding has
no such case to raise).  When the first pulsar's `toas` and `residuals`
lengths disagree (with `toas` matching the cached `Nmat` dimension), a call
that finds the cache empty first *builds and stores* the `Nmat` cache —
performing its Cholesky factorizations, which is why `get_Nmats` succeeding
is a hypothesis — and only then fails, with numpy's dimension-mismatch
`ValueError` inside the first inner product (`np.dot`, source line 132). -/
theorem compute_Fe_shape_mismatch (env : Env) (s : FeStat) (f0 : ℚ)
    (sky : List (ℚ × ℚ)) (brave : Bool) (nms : List NmatE)
    (p : Pulsar) (ps : List Pulsar) (nme : NmatE) (nrest : List NmatE)
    (md : ModelData) (mds : List ModelData)
    (h0 : s.Nmats = none) (hg : s.get_Nmats = .ok nms)
    (hpsr : s.psrs = p :: ps) (hnms : nms = nme :: nrest) (hpta : s.pta = md :: mds)
    (htoas : p.toas.length = nme.1) (hres : p.residuals.length ≠ nme.1) :
    FeStat.compute_Fe env s f0 sky brave =
      (.error .valueError, { s with Nmats := some nms }) := by
  unfold FeStat.compute_Fe
  rw [h0]
  dsimp only
  rw [hg]
  dsimp only
  unfold computeFeMain
  rw [hpsr, hnms, hpta]
  simp only [psrLoop]
  rw [psrStep_res_mismatch env f0 brave p nme md htoas hres]
  rfl

/-- The marginalized noise matrix `make_Nmat` produces from `mdW`. -/
def nmW : Matrix (Fin mdW.n) (Fin mdW.n) ℚ :=
  mdW.Nsolve mdW.n 1 1 -
    (mdW.Nsolve mdW.m 1 mdW.T)ᵀ *
      (matInv (mkSigma mdW.TNT mdW.phiinvP) * mdW.Nsolve mdW.m 1 mdW.T)

/-- A one-pulsar instance whose `toas` (length 1) and `residuals`
(length 2) disagree. -/
def sMis : FeStat :=
  { psrs := [⟨[0], [1, 1], (0, 0, 0)⟩], params := none, pta := [mdW],
    Nmats := none }

theorem get_Nmats_sMis : sMis.get_Nmats = .ok [⟨1, nmW⟩] := by
  have hmk : make_Nmat mdW.phiinvP mdW.TNT mdW.Nsolve mdW.T = .ok nmW :=
    make_Nmat_eval mdW.phiinvP mdW.TNT mdW.Nsolve mdW.T (transpose_fin_one _)
      mkSigmaW_pd
  show buildNmats [mdW] = .ok [⟨1, nmW⟩]
  simp only [buildNmats]
  rw [hmk]
  rfl

/-- Witness for the amended C7 statement, at the concrete mismatched
instance `sMis` (with the cache-build success discharged by
`get_Nmats_sMis`, whose proof goes through the Cholesky factorization of
`Sigma = [[2]]`). -/
theorem compute_Fe_shape_mismatch_witness :
    (sMis.Nmats = none) ∧ (sMis.get_Nmats = .ok [⟨1, nmW⟩]) ∧
      (([(0 : ℚ)]).length = (⟨1, nmW⟩ : NmatE).1) ∧
      (([(1 : ℚ), 1]).length ≠ (⟨1, nmW⟩ : NmatE).1) ∧
      FeStat.compute_Fe envW sMis 1 [(0, 0)] false =
        (.error .valueError, { sMis with Nmats := some [⟨1, nmW⟩] }) :=
  ⟨rfl, get_Nmats_sMis, rfl, by decide,
    compute_Fe_shape_mismatch envW sMis 1 [(0, 0)] false [⟨1, nmW⟩]
      ⟨[0], [1, 1], (0, 0, 0)⟩ [] ⟨1, nmW⟩ [] mdW [] rfl get_Nmats_sMis rfl rfl
      rfl rfl (by decide)⟩

/-- C7 as stated is false at the concrete input `sMis` (one pulsar,
`toas = [0]`, `residuals = [1, 1]`): `compute_Fe` raises no
shape-validation error before factorization — it completes the `Nmat`
cache build (`get_Nmats` succeeds, i.e. the Cholesky factorization of
every pulsar's `Sigma` is attempted, and here succeeds, first), stores the
cache, and only then surfaces numpy's `ValueError` from the shape-checked
`np.dot` inside the first inner product.  No `ShapeMismatchError` exists
anywhere in the source: the embedding's error type has only the
`LinAlgError` and `ValueError` cases that the code can actually raise. -/
theorem compute_Fe_shape_mismatch_cex :
    (sMis.get_Nmats = .ok [⟨1, nmW⟩]) ∧
      FeStat.compute_Fe envW sMis 1 [(0, 0)] false =
        (.error .valueError, { sMis with Nmats := some [⟨1, nmW⟩] }) := by
  refine ⟨get_Nmats_sMis, ?_⟩
  unfold FeStat.compute_Fe
  rw [show sMis.Nmats = none from rfl]
  dsimp only
  rw [get_Nmats_sMis]
  dsimp only
  unfold computeFeMain
  rw [show sMis.psrs = [⟨[0], [1, 1], (0, 0, 0)⟩] from rfl,
    show sMis.pta = [mdW] from rfl]
  simp only [psrLoop]
  rw [psrStep_res_mismatch envW 1 false ⟨[0], [1, 1], (0, 0, 0)⟩ ⟨1, nmW⟩ mdW
    rfl (by decide)]
  rfl
